import Mathlib

/-!
# Verification of the associative-container engine (tstl)

Shallow embedding of the repository's hash-bucket index
(`src/unnamed/part_003`, class `HashBuckets`), the multi-key tree
comparator and bound queries (`src/src/internal/tree/MultiMapTree.ts`),
the container façades (`src/ts/src/std/HashSet.ts`,
`src/ts/src/std/TreeSet.ts`), together with proofs of the specification's
claims about them.

Conventions of the embedding:
* JavaScript numbers that hold sizes, indices and hash codes are
  modelled as `Nat` (hash codes produced by the library's hashers are
  non-negative integers); `max_load_factor_` is modelled as `ℚ`
  (exact for the binary-representable factors the counterexamples use,
  and for the default `1.0`).
* JavaScript `x & y` on a non-negative integer `x` and a mask
  `y < 2^31` first truncates `x` to 32 bits (`ToInt32`); this is
  `jsAnd` below.
* `Math.log2`/`Math.ceil` in `HashBuckets.rehash` are used only to
  round a requested length up to a power of two; for lengths that fit
  in an array (`< 2^32`) the floating computation is exact, and the
  embedding uses the corresponding exact `Nat.log`/`Nat.clog`.
* Fallible lookups (`find` returning the element or `null`) return
  `Option`.
-/

namespace Tstl

/-! ## Hash bucket index: `HashBuckets` (src/unnamed/part_003) -/

/-- The three collaborators a `HashBuckets` is constructed with:
`fetcher_ : Elem → Key`, `hasher_ : Key → number`,
`predicator_ : (Key, Key) → boolean`. -/
structure HashConfig (Key Elem : Type) where
  fetcher : Elem → Key
  hasher : Key → Nat
  pred : Key → Key → Bool

/-- `const MIN_BUCKET_COUNT = 8` (src/unnamed/part_003:189). -/
def MIN_BUCKET_COUNT : Nat := 8

/-- `const DEFAULT_MAX_FACTOR = 1.0` (src/unnamed/part_003:190). -/
def DEFAULT_MAX_FACTOR : ℚ := 1

/-- Mutable state of a `HashBuckets`: `max_load_factor_`, the bucket
array `data_ : Elem[][]`, and the element counter `size_`. -/
structure HashBuckets (Key Elem : Type) where
  max_load_factor_ : ℚ
  data_ : List (List Elem)
  size_ : Nat

/-- JavaScript `a & b` for a non-negative integer `a` and a mask
`b < 2^31`: `a` is truncated to its low 32 bits first
(`ToInt32` of the ECMAScript bitwise-AND). -/
def jsAnd (a b : Nat) : Nat := (a % 2 ^ 32) &&& b

/-- JS `bucket.push(elem)` on bucket `i` of the bucket array. -/
def bucketPush {Elem : Type} (d : List (List Elem)) (i : Nat) (e : Elem) :
    List (List Elem) :=
  d.set i (d.getD i [] ++ [e])

namespace HashBuckets

variable {Key Elem : Type}

/-- `row_size()`: `this.data_.length`. -/
def row_size (self : HashBuckets Key Elem) : Nat := self.data_.length

/-- `size()`: `this.size_`. -/
def size (self : HashBuckets Key Elem) : Nat := self.size_

/-- `capacity()`: `Math.floor(this.data_.length * this.max_load_factor_)`
(`Rat.floor` is the executable floor on `ℚ`). -/
def capacity (self : HashBuckets Key Elem) : Nat :=
  ((self.data_.length : ℚ) * self.max_load_factor_).floor.toNat

/-- The constructor body after storing the collaborators:
`max_load_factor_ = DEFAULT_MAX_FACTOR; data_ = []; size_ = 0;
initialize()`, where `initialize` pushes `MIN_BUCKET_COUNT` empty
buckets. -/
def init : HashBuckets Key Elem :=
  { max_load_factor_ := DEFAULT_MAX_FACTOR
    data_ := List.replicate MIN_BUCKET_COUNT []
    size_ := 0 }

/-- `clear()`: `data_ = []; size_ = 0; initialize()`. -/
def clear (self : HashBuckets Key Elem) : HashBuckets Key Elem :=
  { self with data_ := List.replicate MIN_BUCKET_COUNT [], size_ := 0 }

/-- `max_load_factor(z)` (setter overload). -/
def set_max_load_factor (self : HashBuckets Key Elem) (z : ℚ) :
    HashBuckets Key Elem :=
  { self with max_load_factor_ := z }

/-- The length normalization at the top of `rehash`:
`length = Math.max(length, MIN_BUCKET_COUNT); const log = Math.log2(length);
if (log !== Math.floor(log)) length = Math.pow(2, Math.ceil(log))`.
`Nat.log 2` / `Nat.clog 2` are the exact floor/ceiling base-2 logarithms,
which agree with the floating computation for any length `< 2^32`. -/
def rehashLength (length : Nat) : Nat :=
  if max length MIN_BUCKET_COUNT
      = 2 ^ Nat.log 2 (max length MIN_BUCKET_COUNT) then
    max length MIN_BUCKET_COUNT
  else 2 ^ Nat.clog 2 (max length MIN_BUCKET_COUNT)

/-- `rehash(length)`: normalize the length, create `length` empty
buckets, then migrate every element of every row, in order, to bucket
`this.hasher_(this.fetcher_(element)) % length` of the new array. -/
def rehash (cfg : HashConfig Key Elem) (self : HashBuckets Key Elem)
    (length : Nat) : HashBuckets Key Elem :=
  let len := rehashLength length
  { self with
    data_ := self.data_.flatten.foldl
      (fun d e => bucketPush d (cfg.hasher (cfg.fetcher e) % len) e)
      (List.replicate len []) }

/-- `reserve(length)`: if `length > capacity()`, rehash to
`Math.floor(length / this.max_load_factor_)` buckets. -/
def reserve (cfg : HashConfig Key Elem) (self : HashBuckets Key Elem)
    (length : Nat) : HashBuckets Key Elem :=
  if length > self.capacity then
    rehash cfg self ((length : ℚ) / self.max_load_factor_).floor.toNat
  else self

/-- `index_by_key(key)`: `this.hasher_(key) & (this.data_.length - 1)`. -/
def index_by_key (cfg : HashConfig Key Elem) (self : HashBuckets Key Elem)
    (key : Key) : Nat :=
  jsAnd (cfg.hasher key) (self.data_.length - 1)

/-- `index_by_value(elem)`: `index_by_key(this.fetcher_(elem))`. -/
def index_by_value (cfg : HashConfig Key Elem) (self : HashBuckets Key Elem)
    (elem : Elem) : Nat :=
  index_by_key cfg self (cfg.fetcher elem)

/-- `find(key)`: scan the bucket at `index_by_key(key)` and return the
first element `it` with `predicator_(key, fetcher_(it)) === true`,
else `null`. -/
def find (cfg : HashConfig Key Elem) (self : HashBuckets Key Elem)
    (key : Key) : Option Elem :=
  (self.data_.getD (index_by_key cfg self key) []).find?
    (fun it => cfg.pred key (cfg.fetcher it))

/-- `insert(val)`: read `capacity()`, increment `size_`, call
`reserve(capacity * 2)` when the incremented size exceeds that
capacity, then push `val` onto the bucket at `index_by_value(val)`
(computed against the possibly rehashed array). -/
def insert (cfg : HashConfig Key Elem) (self : HashBuckets Key Elem)
    (val : Elem) : HashBuckets Key Elem :=
  let capacity := self.capacity
  let s1 : HashBuckets Key Elem := { self with size_ := self.size_ + 1 }
  let s2 := if s1.size_ > capacity then reserve cfg s1 (capacity * 2) else s1
  { s2 with data_ := bucketPush s2.data_ (index_by_value cfg s2 val) val }

/-- `erase(val)`: in the bucket at `index_by_value(val)`, splice out the
first entry that is `=== val` (reference identity; handles are
pairwise distinct objects, embedded as structural equality under a
no-duplicate hypothesis) and decrement `size_`; do nothing when no
entry matches. -/
def erase [DecidableEq Elem] (cfg : HashConfig Key Elem)
    (self : HashBuckets Key Elem) (val : Elem) : HashBuckets Key Elem :=
  let index := index_by_value cfg self val
  let bucket := self.data_.getD index []
  if val ∈ bucket then
    { self with
      data_ := self.data_.set index (bucket.erase val)
      size_ := self.size_ - 1 }
  else self

/-- All elements stored in the table, in row-major order. -/
def elems (self : HashBuckets Key Elem) : List Elem := self.data_.flatten

/-- The structural invariant of a bucket table: the bucket array is a
power of two no larger than `2^31` entries (array masks stay exact),
and every stored element sits in the bucket `find` computes for its
own key. -/
def WellFormed (cfg : HashConfig Key Elem) (self : HashBuckets Key Elem) :
    Prop :=
  (∃ k ≤ 31, self.data_.length = 2 ^ k) ∧
    ∀ i, i < self.data_.length →
      ∀ e ∈ self.data_.getD i [], index_by_value cfg self e = i

/-- Hasher/equality consistency, the caller obligation stated by the
spec: `equality(a, b) ⇒ hasher(a) == hasher(b)`. -/
def HashConsistent (cfg : HashConfig Key Elem) : Prop :=
  ∀ a b, cfg.pred a b = true → cfg.hasher a = cfg.hasher b

/-- The sequence of public mutators claim C7 quantifies over. -/
inductive HashOp (Elem : Type) where
  | clear : HashOp Elem
  | rehash (n : Nat) : HashOp Elem
  | reserve (n : Nat) : HashOp Elem
  | insert (e : Elem) : HashOp Elem
  | erase (e : Elem) : HashOp Elem

/-- Apply one public mutator. -/
def step [DecidableEq Elem] (cfg : HashConfig Key Elem)
    (self : HashBuckets Key Elem) : HashOp Elem → HashBuckets Key Elem
  | .clear => self.clear
  | .rehash n => rehash cfg self n
  | .reserve n => reserve cfg self n
  | .insert e => insert cfg self e
  | .erase e => erase cfg self e

/-- Run a sequence of public mutators from a freshly constructed table. -/
def runOps [DecidableEq Elem] (cfg : HashConfig Key Elem)
    (ops : List (HashOp Elem)) : HashBuckets Key Elem :=
  ops.foldl (step cfg) init

end HashBuckets

/-! ### Basic lemmas about the bucket array operations -/

section HashLemmas

variable {Key Elem : Type}

theorem jsAnd_two_pow_sub_one (h : Nat) {k : Nat} (hk : k ≤ 32) :
    jsAnd h (2 ^ k - 1) = h % 2 ^ k := by
  rw [jsAnd, Nat.and_pow_two_sub_one_eq_mod]
  exact Nat.mod_mod_of_dvd _ (pow_dvd_pow 2 hk)

theorem jsAnd_lt {m : Nat} (h : Nat) (hm : 0 < m) : jsAnd h (m - 1) < m :=
  lt_of_le_of_lt (Nat.and_le_right) (Nat.sub_lt hm one_pos)

@[simp] theorem bucketPush_length (d : List (List Elem)) (i : Nat) (e : Elem) :
    (bucketPush d i e).length = d.length := by
  simp [bucketPush]

theorem bucketPush_getD (d : List (List Elem)) {j : Nat} (hj : j < d.length)
    (e : Elem) (i : Nat) :
    (bucketPush d j e).getD i [] =
      if i = j then d.getD i [] ++ [e] else d.getD i [] := by
  unfold bucketPush
  rcases Nat.lt_or_ge i d.length with hi | hi
  · have hi' : i < (d.set j (d.getD j [] ++ [e])).length := by simpa using hi
    rw [List.getD_eq_getElem _ _ hi', List.getD_eq_getElem _ _ hi]
    split
    · next h => subst h; simp [List.getElem?_eq_getElem hi]
    · next h => simp [List.getElem_set_ne (Ne.symm h)]
  · have h1 : (d.set j (d.getD j [] ++ [e])).getD i [] = [] :=
      List.getD_eq_default _ _ (by simpa using hi)
    have h2 : d.getD i [] = [] := List.getD_eq_default _ _ hi
    rw [h1, h2]
    have : i ≠ j := fun h => absurd (h ▸ hi) (Nat.not_le_of_lt hj)
    simp [this]

theorem foldl_bucketPush_length (f : Elem → Nat) (xs : List Elem)
    (d : List (List Elem)) :
    (xs.foldl (fun d e => bucketPush d (f e) e) d).length = d.length := by
  induction xs generalizing d with
  | nil => rfl
  | cons x xs ih => simp [List.foldl_cons, ih]

theorem foldl_bucketPush_getD (f : Elem → Nat) (xs : List Elem)
    (d : List (List Elem)) (hf : ∀ e ∈ xs, f e < d.length) (i : Nat) :
    (xs.foldl (fun d e => bucketPush d (f e) e) d).getD i [] =
      d.getD i [] ++ xs.filter (fun e => f e = i) := by
  induction xs generalizing d with
  | nil => simp
  | cons x xs ih =>
    have hx : f x < d.length := hf x (by simp)
    rw [List.foldl_cons, ih _ (fun e he => by
      simpa using hf e (List.mem_cons_of_mem _ he)),
      bucketPush_getD d hx]
    by_cases hix : (f x : Nat) = i
    · subst hix; simp [List.filter_cons]
    · have : ¬ (i = f x) := fun h => hix h.symm
      simp [List.filter_cons, this, hix]

end HashLemmas

/-! ### Lemmas about `rehash` -/

section RehashLemmas

variable {Key Elem : Type}

open HashBuckets

theorem rehashLength_eq (n : Nat) :
    rehashLength n = 2 ^ Nat.clog 2 (max n MIN_BUCKET_COUNT) := by
  unfold rehashLength
  split
  · next h =>
    conv_rhs => rw [h, Nat.clog_pow _ _ one_lt_two]
    exact h
  · rfl

theorem rehashLength_isLeast (n : Nat) :
    IsLeast {p | (∃ k, p = 2 ^ k) ∧ max n MIN_BUCKET_COUNT ≤ p}
      (rehashLength n) := by
  rw [rehashLength_eq]
  constructor
  · exact ⟨⟨_, rfl⟩, Nat.le_pow_clog one_lt_two _⟩
  · rintro p ⟨⟨k, rfl⟩, hp⟩
    exact Nat.pow_le_pow_right (by norm_num)
      ((Nat.le_pow_iff_clog_le one_lt_two).mp hp)

theorem rehashLength_ge (n : Nat) : MIN_BUCKET_COUNT ≤ rehashLength n :=
  le_trans (le_max_right _ _) (rehashLength_isLeast n).1.2

theorem rehash_row_size (cfg : HashConfig Key Elem)
    (self : HashBuckets Key Elem) (n : Nat) :
    (rehash cfg self n).row_size = rehashLength n := by
  unfold rehash row_size
  rw [foldl_bucketPush_length]
  simp

theorem rehash_getD (cfg : HashConfig Key Elem)
    (self : HashBuckets Key Elem) (n : Nat) {i : Nat}
    (hi : i < rehashLength n) :
    (rehash cfg self n).data_.getD i [] =
      self.elems.filter
        (fun e => cfg.hasher (cfg.fetcher e) % rehashLength n = i) := by
  unfold rehash
  rw [foldl_bucketPush_getD]
  · rw [List.getD_eq_getElem _ _ (by simpa using hi)]
    simp [elems]
  · intro e _
    simp only [List.length_replicate]
    exact Nat.mod_lt _ (lt_of_lt_of_le (by norm_num [MIN_BUCKET_COUNT])
      (rehashLength_ge n))

end RehashLemmas

/-! ### Claim C1: rehash reassigns to `hash(key) & (new_count - 1)`, and
`find` succeeds after a rehash -/

section ClaimC1

variable {Key Elem : Type}

open HashBuckets

theorem rehashLength_le (n : Nat) (hn : n ≤ 2 ^ 31) :
    rehashLength n ≤ 2 ^ 31 := by
  rw [rehashLength_eq]
  exact Nat.pow_le_pow_right (by norm_num)
    ((Nat.le_pow_iff_clog_le one_lt_two).mp
      (max_le hn (by norm_num [MIN_BUCKET_COUNT])))

theorem mod_rehashLength_eq_jsAnd (n : Nat) (hn : n ≤ 2 ^ 31) (h : Nat) :
    h % rehashLength n = jsAnd h (rehashLength n - 1) := by
  rw [rehashLength_eq] at *
  exact (jsAnd_two_pow_sub_one h
    (le_trans ((Nat.le_pow_iff_clog_le one_lt_two).mp
      (max_le hn (by norm_num [MIN_BUCKET_COUNT]))) (by norm_num))).symm

/-- C1: after `rehash`, every stored handle sits in the bucket with
index `hash(key) & (new_count - 1)` — the same index a subsequent
`find(key)` computes — so, for every key present in the table (and a
hasher consistent with the equality predicate, the caller obligation),
`find(key)` returns a handle whose key is equal to the query key under
the predicate. -/
theorem rehash_find_ok (cfg : HashConfig Key Elem)
    (self : HashBuckets Key Elem) (n : Nat) (hn : n ≤ 2 ^ 31)
    (hcons : HashConsistent cfg) :
    (∀ i e, e ∈ (rehash cfg self n).data_.getD i [] ↔
      e ∈ self.elems ∧
        i = jsAnd (cfg.hasher (cfg.fetcher e))
              ((rehash cfg self n).row_size - 1)) ∧
    (∀ key, (∃ e ∈ self.elems, cfg.pred key (cfg.fetcher e) = true) →
      ∃ e', find cfg (rehash cfg self n) key = some e' ∧
        cfg.pred key (cfg.fetcher e') = true) := by
  have hL0 : 0 < rehashLength n :=
    lt_of_lt_of_le (by norm_num [MIN_BUCKET_COUNT]) (rehashLength_ge n)
  have hrow : (rehash cfg self n).row_size = rehashLength n :=
    rehash_row_size cfg self n
  have hmem : ∀ i e, e ∈ (rehash cfg self n).data_.getD i [] ↔
      e ∈ self.elems ∧
        i = jsAnd (cfg.hasher (cfg.fetcher e))
              ((rehash cfg self n).row_size - 1) := by
    intro i e
    rw [hrow]
    have hmod := mod_rehashLength_eq_jsAnd n hn (cfg.hasher (cfg.fetcher e))
    rcases Nat.lt_or_ge i (rehashLength n) with hi | hi
    · rw [rehash_getD cfg self n hi, List.mem_filter]
      constructor
      · rintro ⟨he, hf⟩
        refine ⟨he, ?_⟩
        have hf' : cfg.hasher (cfg.fetcher e) % rehashLength n = i := by
          simpa using hf
        rw [← hmod, hf']
      · rintro ⟨he, hf⟩
        refine ⟨he, ?_⟩
        simp only [decide_eq_true_eq]
        rw [hf]
        exact hmod
    · constructor
      · intro he
        exfalso
        have hnil : (rehash cfg self n).data_.getD i [] = [] :=
          List.getD_eq_default _ _ (by
            have h1 : (rehash cfg self n).data_.length = rehashLength n :=
              hrow
            omega)
        rw [hnil] at he
        exact absurd he (List.not_mem_nil e)
      · rintro ⟨_, hf⟩
        exfalso
        have := jsAnd_lt (cfg.hasher (cfg.fetcher e)) hL0
        omega
  refine ⟨hmem, ?_⟩
  rintro key ⟨e, he, hp⟩
  have hkey : cfg.hasher key = cfg.hasher (cfg.fetcher e) := hcons _ _ hp
  have hbucket : e ∈ (rehash cfg self n).data_.getD
      (index_by_key cfg (rehash cfg self n) key) [] := by
    rw [hmem]
    refine ⟨he, ?_⟩
    simp only [index_by_key, row_size] at *
    rw [hkey]
  have hsome : ((rehash cfg self n).data_.getD
      (index_by_key cfg (rehash cfg self n) key) []).find?
        (fun it => cfg.pred key (cfg.fetcher it)) |>.isSome :=
    List.find?_isSome.mpr ⟨e, hbucket, hp⟩
  obtain ⟨e', he'⟩ := Option.isSome_iff_exists.mp hsome
  refine ⟨e', ?_, ?_⟩
  · exact he'
  · simpa using List.find?_some he'

/-- Concrete collaborators for witnesses: keys and elements are `Nat`,
the fetcher is the identity, the hasher is the identity and equality
is `==`. -/
def cfgN : HashConfig Nat Nat := ⟨id, id, fun a b => a == b⟩

/-- A concrete well-formed 8-bucket table holding the single key 5. -/
def sampleTable : HashBuckets Nat Nat :=
  ⟨1, [[], [], [], [], [], [5], [], []], 1⟩

/-- The freshly constructed table at the witness types. -/
def initN : HashBuckets Nat Nat := HashBuckets.init

theorem rehash_find_ok_witness :
    ∃ e', HashBuckets.find cfgN (HashBuckets.rehash cfgN sampleTable 16) 5
        = some e' ∧ cfgN.pred 5 (cfgN.fetcher e') = true :=
  (rehash_find_ok cfgN sampleTable 16 (by decide)
    (fun a b h => beq_iff_eq.mp h)).2 5 ⟨5, by decide, by decide⟩

end ClaimC1

/-! ### Claim C7: the bucket count is always a power of two ≥ 8 -/

section ClaimC7

variable {Key Elem : Type}

open HashBuckets

/-- "Power of two and at least 8". -/
def Pow2Ge8 (m : Nat) : Prop := ∃ k, 3 ≤ k ∧ m = 2 ^ k

theorem pow2Ge8_rehashLength (n : Nat) : Pow2Ge8 (rehashLength n) := by
  rw [rehashLength_eq]
  refine ⟨Nat.clog 2 (max n MIN_BUCKET_COUNT), ?_, rfl⟩
  have h8 : (8 : Nat) ≤ max n MIN_BUCKET_COUNT := le_max_right _ _
  have := Nat.clog_mono_right 2 h8
  rwa [show (8:Nat) = 2 ^ 3 from rfl, Nat.clog_pow _ _ one_lt_two] at this

theorem pow2Ge8_reserve (cfg : HashConfig Key Elem)
    (self : HashBuckets Key Elem) (n : Nat) (h : Pow2Ge8 self.row_size) :
    Pow2Ge8 (reserve cfg self n).row_size := by
  rw [reserve]
  split
  · rw [rehash_row_size]; exact pow2Ge8_rehashLength _
  · exact h

theorem insert_row_size (cfg : HashConfig Key Elem)
    (self : HashBuckets Key Elem) (val : Elem) :
    (HashBuckets.insert cfg self val).row_size =
      (if self.size_ + 1 > self.capacity
        then reserve cfg { self with size_ := self.size_ + 1 }
          (self.capacity * 2)
        else ({ self with size_ := self.size_ + 1 } :
          HashBuckets Key Elem)).row_size := by
  simp only [HashBuckets.insert, row_size, bucketPush_length]

theorem pow2Ge8_step [DecidableEq Elem] (cfg : HashConfig Key Elem)
    (self : HashBuckets Key Elem) (op : HashOp Elem)
    (h : Pow2Ge8 self.row_size) : Pow2Ge8 (step cfg self op).row_size := by
  cases op with
  | clear =>
    exact ⟨3, le_refl _, by simp [step, clear, row_size, MIN_BUCKET_COUNT]⟩
  | rehash n =>
    show Pow2Ge8 (rehash cfg self n).row_size
    rw [rehash_row_size]
    exact pow2Ge8_rehashLength n
  | reserve n =>
    exact pow2Ge8_reserve cfg self n h
  | insert e =>
    show Pow2Ge8 (HashBuckets.insert cfg self e).row_size
    rw [insert_row_size]
    split
    · exact pow2Ge8_reserve cfg _ _ h
    · exact h
  | erase e =>
    show Pow2Ge8 (erase cfg self e).row_size
    rw [erase]
    split
    · simpa [row_size] using h
    · exact h

/-- C7: for every sequence of public operations from construction, the
bucket count is a power of two and at least 8; moreover `rehash(n)`
sets the bucket count to the least power of two that is at least
`max(n, 8)`. -/
theorem bucket_count_pow2 [DecidableEq Elem] (cfg : HashConfig Key Elem)
    (ops : List (HashOp Elem)) :
    Pow2Ge8 (runOps cfg ops).row_size ∧
    ∀ (self : HashBuckets Key Elem) (n : Nat),
      IsLeast {p | (∃ k, p = 2 ^ k) ∧ max n MIN_BUCKET_COUNT ≤ p}
        ((rehash cfg self n).row_size) := by
  constructor
  · have hinit : Pow2Ge8 (init : HashBuckets Key Elem).row_size :=
      ⟨3, le_refl _, by simp [init, row_size, MIN_BUCKET_COUNT]⟩
    rw [runOps]
    generalize (init : HashBuckets Key Elem) = s at hinit ⊢
    induction ops generalizing s with
    | nil => exact hinit
    | cons op ops ih => exact ih _ (pow2Ge8_step cfg s op hinit)
  · intro self n
    rw [rehash_row_size]
    exact rehashLength_isLeast n

end ClaimC7

/-! ### Claim C2: load-factor postcondition of `insert` -/

section ClaimC2

variable {Key Elem : Type}

open HashBuckets

theorem rat_floor_eq_intFloor (q : ℚ) : q.floor = ⌊q⌋ := by
  rw [Rat.floor_def', Rat.floor_def]

theorem capacity_of_mlf_one (self : HashBuckets Key Elem)
    (h : self.max_load_factor_ = 1) : self.capacity = self.row_size := by
  rw [capacity, h, mul_one, row_size, rat_floor_eq_intFloor,
    Int.floor_natCast]
  exact Int.toNat_natCast _

theorem reserve_size (cfg : HashConfig Key Elem)
    (self : HashBuckets Key Elem) (n : Nat) :
    (reserve cfg self n).size_ = self.size_ := by
  rw [reserve]; split <;> rfl

theorem reserve_mlf (cfg : HashConfig Key Elem)
    (self : HashBuckets Key Elem) (n : Nat) :
    (reserve cfg self n).max_load_factor_ = self.max_load_factor_ := by
  rw [reserve]; split <;> rfl

theorem insert_size (cfg : HashConfig Key Elem)
    (self : HashBuckets Key Elem) (val : Elem) :
    (HashBuckets.insert cfg self val).size_ = self.size_ + 1 := by
  simp only [HashBuckets.insert]
  split
  · exact reserve_size cfg _ _
  · rfl

theorem insert_mlf (cfg : HashConfig Key Elem)
    (self : HashBuckets Key Elem) (val : Elem) :
    (HashBuckets.insert cfg self val).max_load_factor_
      = self.max_load_factor_ := by
  simp only [HashBuckets.insert]
  split
  · exact reserve_mlf cfg _ _
  · rfl

theorem rehashLength_double {k : Nat} (hk : 3 ≤ k) :
    rehashLength (2 ^ k * 2) = 2 ^ (k + 1) := by
  rw [rehashLength_eq]
  have h1 : 2 ^ k * 2 = 2 ^ (k + 1) := by ring
  have h2 : MIN_BUCKET_COUNT ≤ 2 ^ (k + 1) := by
    calc (MIN_BUCKET_COUNT : Nat) = 2 ^ 3 := rfl
    _ ≤ 2 ^ (k + 1) := Nat.pow_le_pow_right (by norm_num) (by omega)
  rw [h1, max_eq_left h2, Nat.clog_pow _ _ one_lt_two]

theorem insert_row_overflow (cfg : HashConfig Key Elem)
    (self : HashBuckets Key Elem) (val : Elem)
    (hmlf : self.max_load_factor_ = 1) (hpow : Pow2Ge8 self.row_size)
    (hover : self.size_ + 1 > self.capacity) :
    (HashBuckets.insert cfg self val).row_size = 2 * self.row_size := by
  obtain ⟨k, hk3, hk⟩ := hpow
  have hcap : self.capacity = self.row_size := capacity_of_mlf_one self hmlf
  have hrow_pos : 0 < self.row_size := by
    rw [hk]; exact Nat.pos_pow_of_pos k (by norm_num)
  rw [insert_row_size, if_pos hover, reserve]
  have hcap1 : ({ self with size_ := self.size_ + 1 } :
      HashBuckets Key Elem).capacity = self.row_size := by
    rw [← hcap]; rfl
  rw [if_pos (by rw [hcap1, hcap]; omega)]
  rw [rehash_row_size]
  have harg : (((self.capacity * 2 : Nat) : ℚ) /
      ({ self with size_ := self.size_ + 1 } :
        HashBuckets Key Elem).max_load_factor_).floor.toNat
      = self.row_size * 2 := by
    have h1 : ({ self with size_ := self.size_ + 1 } :
        HashBuckets Key Elem).max_load_factor_ = 1 := hmlf
    rw [h1, div_one, rat_floor_eq_intFloor, Int.floor_natCast,
      Int.toNat_natCast, hcap]
  rw [harg, hk, rehashLength_double hk3]
  ring

/-- C2 as stated is false: with `max_load_factor = 1/16` (set through
the public `max_load_factor(z)` overload) an 8-bucket table has
`capacity = 0`, so the overflowing insert calls `reserve(0)`, which
does nothing, and afterwards `size = 1 > bucket_count * max_load_factor
= 1/2`. -/
theorem reserve_of_le (cfg : HashConfig Key Elem)
    (self : HashBuckets Key Elem) (n : Nat) (h : n ≤ self.capacity) :
    reserve cfg self n = self := by
  rw [reserve, if_neg (by omega)]

theorem insert_load_factor_counterexample :
    ¬ (((HashBuckets.insert cfgN
          (set_max_load_factor initN (1 / 16)) 0).size_ : ℚ) ≤
        ((HashBuckets.insert cfgN
          (set_max_load_factor initN (1 / 16)) 0).row_size : ℚ) *
        (HashBuckets.insert cfgN
          (set_max_load_factor initN (1 / 16)) 0).max_load_factor_) := by
  intro hcontra
  have hcap : (set_max_load_factor initN (1 / 16)).capacity = 0 := by
    norm_num [capacity, set_max_load_factor, initN, HashBuckets.init,
      MIN_BUCKET_COUNT, Rat.floor_def']
  have hcap1 : ({ set_max_load_factor initN (1 / 16) with
      size_ := (set_max_load_factor initN (1 / 16)).size_ + 1 } :
      HashBuckets Nat Nat).capacity = 0 := hcap
  have hsz : (HashBuckets.insert cfgN
      (set_max_load_factor initN (1 / 16)) 0).size_ = 1 := by
    rw [insert_size]; rfl
  have hmlf : (HashBuckets.insert cfgN
      (set_max_load_factor initN (1 / 16)) 0).max_load_factor_
      = 1 / 16 := by
    rw [insert_mlf]; rfl
  have hrow : (HashBuckets.insert cfgN
      (set_max_load_factor initN (1 / 16)) 0).row_size = 8 := by
    rw [insert_row_size, if_pos (by rw [hcap]; omega),
      reserve_of_le _ _ _ (by rw [hcap, hcap1])]
    rfl
  rw [hsz, hmlf, hrow] at hcontra
  norm_num at hcontra

/-- C2 amended: for a table whose `max_load_factor` is the default
`1.0`, whose bucket count is a power of two (at least 8) and whose
size does not exceed its capacity, `insert` increments `size`, doubles
the bucket count exactly when the new size exceeds
`capacity = floor(bucket_count * max_load_factor)`, and afterwards
`size <= bucket_count * max_load_factor` holds. -/
theorem insert_load_postcondition (cfg : HashConfig Key Elem)
    (self : HashBuckets Key Elem)
    (hmlf : self.max_load_factor_ = 1) (hpow : Pow2Ge8 self.row_size)
    (hsz : self.size_ ≤ self.capacity) (val : Elem) :
    (HashBuckets.insert cfg self val).size_ = self.size_ + 1 ∧
    (HashBuckets.insert cfg self val).row_size =
      (if self.size_ + 1 > self.capacity then 2 * self.row_size
       else self.row_size) ∧
    ((HashBuckets.insert cfg self val).size_ : ℚ) ≤
      ((HashBuckets.insert cfg self val).row_size : ℚ) *
        (HashBuckets.insert cfg self val).max_load_factor_ := by
  have hcap : self.capacity = self.row_size := capacity_of_mlf_one self hmlf
  have hsz' := insert_size cfg self val
  have hmlf' := insert_mlf cfg self val
  have hrow : (HashBuckets.insert cfg self val).row_size =
      (if self.size_ + 1 > self.capacity then 2 * self.row_size
       else self.row_size) := by
    split
    · next hover => exact insert_row_overflow cfg self val hmlf hpow hover
    · next hno =>
      rw [insert_row_size, if_neg hno]
      rfl
  refine ⟨hsz', hrow, ?_⟩
  rw [hsz', hmlf', hmlf, mul_one, hrow]
  split
  · next hover =>
    have : self.size_ + 1 ≤ 2 * self.row_size := by
      obtain ⟨k, _, hk⟩ := hpow
      have : 0 < self.row_size := by
        rw [hk]; exact Nat.pos_pow_of_pos k (by norm_num)
      rw [hcap] at hsz
      omega
    exact_mod_cast this
  · next hno =>
    have : self.size_ + 1 ≤ self.row_size := by rw [hcap] at hno; omega
    exact_mod_cast this

theorem insert_load_postcondition_witness :
    (HashBuckets.insert cfgN initN 0).size_ = initN.size_ + 1 ∧
    (HashBuckets.insert cfgN initN 0).row_size =
      (if initN.size_ + 1 > initN.capacity then 2 * initN.row_size
       else initN.row_size) ∧
    ((HashBuckets.insert cfgN initN 0).size_ : ℚ) ≤
      ((HashBuckets.insert cfgN initN 0).row_size : ℚ) *
        (HashBuckets.insert cfgN initN 0).max_load_factor_ :=
  insert_load_postcondition cfgN initN rfl ⟨3, by decide, rfl⟩
    (Nat.zero_le _) 0

end ClaimC2

/-! ## Iterator handles and the hash-set façade
(`src/ts/src/std/HashSet.ts`) -/

/-- An iterator handle as stored inside a hash index: the payload plus
the distinguishing creation id (two distinct live handles are distinct
objects; JS `===` on them is embedded as structural equality, which the
distinct `uid`s make faithful). -/
structure SetIter (α : Type) where
  value : α
  uid : Nat
  deriving DecidableEq, Repr

/-- The collaborators a `SetHashBuckets` passes to `HashBuckets`: the
fetcher extracts the handle's value. -/
def setCfg {α : Type} (hasher : α → Nat) (pred : α → α → Bool) :
    HashConfig α (SetIter α) :=
  ⟨SetIter.value, hasher, pred⟩

/-- State of a `HashSet`: the element store `data_` in traversal
order, the bucket index, and the next creation id. -/
structure HashSet (α : Type) where
  data_ : List (SetIter α)
  buckets : HashBuckets α (SetIter α)
  next_uid : Nat

/-- `HashSet.insert_by_val(val)`: look the value up through the bucket
index; if a handle is found return `(it, false)` without touching
anything; otherwise push the value onto the store, take the handle to
the appended element (`it = it.prev()` of `end()`), register it in the
bucket index (`handle_insert`) and return `(it, true)`. -/
def HashSet.insert_by_val {α : Type} (hasher : α → Nat)
    (pred : α → α → Bool) (s : HashSet α) (val : α) :
    HashSet α × (Option (SetIter α) × Bool) :=
  match HashBuckets.find (setCfg hasher pred) s.buckets val with
  | some it => (s, (some it, false))
  | none =>
    let it : SetIter α := ⟨val, s.next_uid⟩
    ({ data_ := s.data_ ++ [it]
       buckets := HashBuckets.insert (setCfg hasher pred) s.buckets it
       next_uid := s.next_uid + 1 },
     (some it, true))

/-! ### Correctness of `find` on a well-formed table -/

section FindLemmas

variable {Key Elem : Type}

open HashBuckets

theorem bucket_subset_elems (self : HashBuckets Key Elem) (i : Nat) :
    ∀ e ∈ self.data_.getD i [], e ∈ self.elems := by
  intro e he
  rcases Nat.lt_or_ge i self.data_.length with hi | hi
  · rw [List.getD_eq_getElem _ _ hi] at he
    exact List.mem_flatten.mpr ⟨self.data_[i], List.getElem_mem hi, he⟩
  · rw [List.getD_eq_default _ _ hi] at he
    exact absurd he (List.not_mem_nil e)

theorem mem_own_bucket (cfg : HashConfig Key Elem)
    (self : HashBuckets Key Elem) (hwf : self.WellFormed cfg) {e : Elem}
    (he : e ∈ self.elems) :
    e ∈ self.data_.getD (index_by_value cfg self e) [] := by
  obtain ⟨b, hb, heb⟩ := List.mem_flatten.mp he
  obtain ⟨i, hi, rfl⟩ := List.getElem_of_mem hb
  have hidx := hwf.2 i hi e (by rw [List.getD_eq_getElem _ _ hi]; exact heb)
  subst hidx
  rw [List.getD_eq_getElem _ _ hi]
  exact heb

theorem find_spec (cfg : HashConfig Key Elem)
    (self : HashBuckets Key Elem) (hwf : self.WellFormed cfg)
    (hcons : HashConsistent cfg) (key : Key) :
    ((∃ e ∈ self.elems, cfg.pred key (cfg.fetcher e) = true) →
      ∃ e', find cfg self key = some e' ∧ e' ∈ self.elems ∧
        cfg.pred key (cfg.fetcher e') = true) ∧
    ((¬ ∃ e ∈ self.elems, cfg.pred key (cfg.fetcher e) = true) →
      find cfg self key = none) := by
  constructor
  · rintro ⟨e, he, hp⟩
    have hbucket : e ∈ self.data_.getD (index_by_key cfg self key) [] := by
      have h1 := mem_own_bucket cfg self hwf he
      rw [index_by_value, index_by_key] at h1
      rw [index_by_key, hcons _ _ hp]
      exact h1
    rw [find]
    rcases hfind : (self.data_.getD (index_by_key cfg self key) []).find?
        (fun it => cfg.pred key (cfg.fetcher it)) with _ | e'
    · exfalso
      rw [List.find?_eq_none] at hfind
      exact absurd hp (by simpa using hfind e hbucket)
    · exact ⟨e', rfl,
        bucket_subset_elems self _ e' (List.mem_of_find?_eq_some hfind),
        by simpa using List.find?_some hfind⟩
  · intro hnone
    rw [find, List.find?_eq_none]
    intro e he
    by_contra hp
    exact hnone ⟨e, bucket_subset_elems self _ e he, by simpa using hp⟩

end FindLemmas

/-! ### Claim C5: unique insert returns the existing handle without
mutation -/

section ClaimC5

variable {α : Type}

open HashBuckets

/-- C5: if the container already holds an element whose key equals the
inserted value's key, `insert` returns `(existing handle, false)` and
leaves the container completely unchanged; otherwise it appends the
value to the store, registers the new handle, and returns
`(new handle, true)`. -/
theorem insert_unique_spec [DecidableEq α] (hasher : α → Nat)
    (pred : α → α → Bool) (s : HashSet α)
    (hwf : s.buckets.WellFormed (setCfg hasher pred))
    (hsame : s.buckets.elems.Perm s.data_)
    (hcons : HashConsistent (setCfg hasher pred)) (val : α) :
    ((∃ e ∈ s.data_, pred val e.value = true) →
      ∃ e', HashSet.insert_by_val hasher pred s val = (s, (some e', false)) ∧
        e' ∈ s.data_ ∧ pred val e'.value = true) ∧
    ((¬ ∃ e ∈ s.data_, pred val e.value = true) →
      HashSet.insert_by_val hasher pred s val =
        ({ data_ := s.data_ ++ [⟨val, s.next_uid⟩]
           buckets := HashBuckets.insert (setCfg hasher pred) s.buckets
             ⟨val, s.next_uid⟩
           next_uid := s.next_uid + 1 },
         (some ⟨val, s.next_uid⟩, true))) := by
  have hmem : ∀ e : SetIter α, e ∈ s.buckets.elems ↔ e ∈ s.data_ :=
    fun e => hsame.mem_iff
  constructor
  · rintro ⟨e, he, hp⟩
    obtain ⟨e', hfind, hmem', hp'⟩ :=
      (find_spec (setCfg hasher pred) s.buckets hwf hcons val).1
        ⟨e, (hmem e).mpr he, hp⟩
    refine ⟨e', ?_, (hmem e').mp hmem', hp'⟩
    rw [HashSet.insert_by_val, hfind]
  · intro hno
    have hnone := (find_spec (setCfg hasher pred) s.buckets hwf hcons val).2
      (fun ⟨e, he, hp⟩ => hno ⟨e, (hmem e).mp he, hp⟩)
    rw [HashSet.insert_by_val, hnone]

/-- A concrete hash set holding the single value 5 (handle uid 0). -/
def sampleSet : HashSet Nat :=
  { data_ := [⟨5, 0⟩]
    buckets := ⟨1, [[], [], [], [], [], [⟨5, 0⟩], [], []], 1⟩
    next_uid := 1 }

theorem insert_unique_spec_witness :
    ∃ e', HashSet.insert_by_val id (fun a b => a == b) sampleSet 5 =
        (sampleSet, (some e', false)) ∧
      e' ∈ sampleSet.data_ ∧ (5 == e'.value) = true :=
  (insert_unique_spec id (fun a b => a == b) sampleSet
      ⟨⟨3, by norm_num, rfl⟩, by decide⟩ (by decide)
      (fun a b h => beq_iff_eq.mp h) 5).1
    ⟨⟨5, 0⟩, by decide, by decide⟩

end ClaimC5

/-! ### Claim C6: erase removes by handle identity -/

section ClaimC6

variable {α β : Type}

open HashBuckets

theorem flatten_set (d : List (List β)) (b : List β) :
    ∀ i, i < d.length →
      (d.set i b).flatten =
        (d.take i).flatten ++ b ++ (d.drop (i + 1)).flatten := by
  induction d with
  | nil => intro i hi; simp at hi
  | cons hd tl ih =>
    intro i hi
    cases i with
    | zero => simp
    | succ j =>
      have hj : j < tl.length := by simpa using hi
      simp [List.set_cons_succ, ih j hj]

theorem flatten_parts (d : List (List β)) :
    ∀ i, i < d.length →
      d.flatten =
        (d.take i).flatten ++ d.getD i [] ++ (d.drop (i + 1)).flatten := by
  induction d with
  | nil => intro i hi; simp at hi
  | cons hd tl ih =>
    intro i hi
    cases i with
    | zero => simp
    | succ j =>
      have hj : j < tl.length := by simpa using hi
      simp only [List.flatten_cons, List.take_succ_cons, List.drop_succ_cons,
        List.getD_cons_succ, ih j hj]
      simp

/-- C6: `erase(handle)` removes exactly the referenced handle, selected
by identity and not by value equality: the stored handles afterwards
are the previous ones minus that single handle, so any other handle —
including one with an equal payload — is still stored with its payload
unchanged. -/
theorem erase_by_identity [DecidableEq α] (cfg : HashConfig α (SetIter α))
    (self : HashBuckets α (SetIter α)) (h : SetIter α)
    (hwf : self.WellFormed cfg)
    (hnodup : (self.elems.map SetIter.uid).Nodup)
    (hmem : h ∈ self.elems) :
    (HashBuckets.erase cfg self h).elems = self.elems.erase h ∧
    h ∉ (HashBuckets.erase cfg self h).elems ∧
    (∀ g ∈ self.elems, g ≠ h → g ∈ (HashBuckets.erase cfg self h).elems) ∧
    (HashBuckets.erase cfg self h).size_ = self.size_ - 1 := by
  have hnd : self.elems.Nodup := hnodup.of_map
  have hbucket := mem_own_bucket cfg self hwf hmem
  set i := index_by_value cfg self h with hidef
  have hi : i < self.data_.length := by
    by_contra hge
    rw [List.getD_eq_default _ _ (by omega)] at hbucket
    exact absurd hbucket (List.not_mem_nil h)
  have herase : HashBuckets.erase cfg self h =
      { self with
        data_ := self.data_.set i ((self.data_.getD i []).erase h)
        size_ := self.size_ - 1 } := by
    rw [HashBuckets.erase, if_pos hbucket]
  have hparts := flatten_parts self.data_ i hi
  have hset := flatten_set self.data_ ((self.data_.getD i []).erase h) i hi
  have htnin : h ∉ (self.data_.take i).flatten := by
    intro hT
    have : ¬ self.elems.Nodup := by
      rw [elems, hparts]
      intro hndp
      have h1 := (List.nodup_append.mp
        ((List.append_assoc _ _ _ ▸ hndp))).2.2
      exact h1 hT (List.mem_append_left _ hbucket)
    exact this hnd
  have helems : (HashBuckets.erase cfg self h).elems =
      self.elems.erase h := by
    rw [herase, elems, hset, elems, hparts,
      List.append_assoc, List.append_assoc,
      List.erase_append_right _ htnin,
      List.erase_append_left _ hbucket]
  refine ⟨helems, ?_, ?_, by rw [herase]⟩
  · rw [helems]
    intro hcontra
    exact absurd rfl (hnd.mem_erase_iff.mp hcontra).1
  · intro g hg hne
    rw [helems]
    exact hnd.mem_erase_iff.mpr ⟨hne, hg⟩

/-- Two distinct handles with the *same payload* 5, uids 0 and 1,
both in bucket 5 of a well-formed table. -/
def dupTable : HashBuckets Nat (SetIter Nat) :=
  ⟨1, [[], [], [], [], [], [⟨5, 0⟩, ⟨5, 1⟩], [], []], 2⟩

/-- Witness at a table holding duplicate payloads: erasing handle
`⟨5, 0⟩` keeps the distinct handle `⟨5, 1⟩` with its payload. -/
theorem erase_by_identity_witness :
    (HashBuckets.erase (setCfg id (fun a b => a == b)) dupTable
        ⟨5, 0⟩).elems = dupTable.elems.erase ⟨5, 0⟩ ∧
    (⟨5, 0⟩ : SetIter Nat) ∉
      (HashBuckets.erase (setCfg id (fun a b => a == b)) dupTable
        ⟨5, 0⟩).elems ∧
    (∀ g ∈ dupTable.elems, g ≠ ⟨5, 0⟩ →
      g ∈ (HashBuckets.erase (setCfg id (fun a b => a == b)) dupTable
        ⟨5, 0⟩).elems) ∧
    (HashBuckets.erase (setCfg id (fun a b => a == b)) dupTable
        ⟨5, 0⟩).size_ = dupTable.size_ - 1 :=
  erase_by_identity (setCfg id (fun a b => a == b)) dupTable ⟨5, 0⟩
    ⟨⟨3, by norm_num, rfl⟩, by decide⟩ (by decide) (by decide)

end ClaimC6

/-! ### Claim C9: `swap` exchanges store and index wholesale
(`src/ts/src/std/TreeSet.ts` 352–367, `src/ts/src/std/HashSet.ts`
231–246) -/

section ClaimC9

variable {α Idx : Type}

/-- A container of either shape as far as `swap` is concerned: the
element store `data_` plus its index structure (`tree_` or
`hash_buckets_`), abstracted as `index_`. -/
structure Container (α Idx : Type) where
  data_ : List (SetIter α)
  index_ : Idx

/-- `swap_tree_set(obj)` on two same-shaped containers:
`[this.data_, obj.data_] = [obj.data_, this.data_];
[this.tree_, obj.tree_] = [obj.tree_, this.tree_]` — the two fields
are exchanged by reference, element by element nothing is copied. -/
def Container.swap (a b : Container α Idx) :
    Container α Idx × Container α Idx :=
  (⟨b.data_, b.index_⟩, ⟨a.data_, a.index_⟩)

/-- Dereference the handle with creation id `uid` inside container
`c`: its payload if the store holds it. -/
def Container.deref (c : Container α Idx) (uid : Nat) : Option α :=
  (c.data_.find? (fun it => it.uid == uid)).map SetIter.value

/-- C9: after `a.swap(b)` the first container holds exactly `b`'s
former store and index and the second holds `a`'s, and every handle
dereferenceable before the swap in either container dereferences to
the same payload afterwards, in the other container. -/
theorem swap_exchanges (a b : Container α Idx) :
    ((a.swap b).1.data_ = b.data_ ∧ (a.swap b).1.index_ = b.index_ ∧
     (a.swap b).2.data_ = a.data_ ∧ (a.swap b).2.index_ = a.index_) ∧
    (∀ uid, (a.swap b).1.deref uid = b.deref uid ∧
            (a.swap b).2.deref uid = a.deref uid) :=
  ⟨⟨rfl, rfl, rfl, rfl⟩, fun _ => ⟨rfl, rfl⟩⟩

end ClaimC9

/-! ## The tree-backed containers -/

/-- Ordered insertion by a strict order `lt`: the unique sorted
position, which is where a binary-search-tree insert places a new node
in the in-order traversal. -/
def treeInsert {α : Type} (lt : α → α → Bool) (x : α) : List α → List α
  | [] => [x]
  | y :: ys => if lt x y then x :: y :: ys else y :: treeInsert lt x ys

/-! ### Claim C10: `clear()` drops the construction comparator
(`src/ts/src/std/TreeSet.ts` 133–182, 496–545) -/

section ClaimC10

variable {α : Type}

/-- Modelled from the spec: the `AtomicTree` implementation is not
under `src/`; its declaration has a niladic constructor and the
containers default a missing comparator to `std.less`, so the model
keeps the active comparator and the handles in traversal order.
`defaultLess` stands for `std.less` at the element type. -/
structure AtomicTree (α : Type) where
  comp : α → α → Bool
  elemsInOrder : List α

/-- Modelled from the spec: `new AtomicTree(compare?)` — the
comparator argument defaults to `std.less` when absent. -/
def AtomicTree.make (defaultLess : α → α → Bool)
    (comp? : Option (α → α → Bool)) : AtomicTree α :=
  ⟨comp?.getD defaultLess, []⟩

/-- A `TreeSet`/`TreeMultiSet` as far as C10 is concerned: its
internal tree. -/
structure TreeSetC (α : Type) where
  tree_ : AtomicTree α

/-- The `TreeSet` constructor: `compare = std.less` unless the last
argument is a function, then `tree_ = new AtomicTree<T>(compare)`. -/
def TreeSetC.construct (defaultLess : α → α → Bool)
    (comp? : Option (α → α → Bool)) : TreeSetC α :=
  ⟨AtomicTree.make defaultLess comp?⟩

/-- `clear()`: `super.clear(); this.tree_ = new AtomicTree<T>()` —
note: *no* comparator argument. -/
def TreeSetC.clear (s : TreeSetC α) (defaultLess : α → α → Bool) :
    TreeSetC α :=
  ⟨AtomicTree.make defaultLess none⟩

/-- Inserting a value places it at the position determined by the
tree's *current* comparator. -/
def TreeSetC.insVal (s : TreeSetC α) (x : α) : TreeSetC α :=
  ⟨⟨s.tree_.comp, treeInsert s.tree_.comp x s.tree_.elemsInOrder⟩⟩

theorem foldl_insVal_comp (xs : List α) (s : TreeSetC α) :
    (xs.foldl TreeSetC.insVal s).tree_.comp = s.tree_.comp := by
  induction xs generalizing s with
  | nil => rfl
  | cons x xs ih => rw [List.foldl_cons, ih]; rfl

theorem foldl_insVal_elems (xs : List α) (s : TreeSetC α) :
    (xs.foldl TreeSetC.insVal s).tree_.elemsInOrder =
      xs.foldl (fun l x => treeInsert s.tree_.comp x l)
        s.tree_.elemsInOrder := by
  induction xs generalizing s with
  | nil => rfl
  | cons x xs ih => rw [List.foldl_cons, List.foldl_cons, ih]; rfl

/-- C10: a tree set constructed with a caller-supplied comparator `c`
uses `c`, but `clear()` replaces the tree with one built with no
comparator argument, so the active comparator becomes the default
`std.less` and any elements inserted afterwards are ordered by
`std.less`, not by `c`. -/
theorem clear_resets_comparator (defaultLess c : α → α → Bool)
    (xs : List α) :
    (TreeSetC.construct defaultLess (some c)).tree_.comp = c ∧
    ((TreeSetC.construct defaultLess (some c)).clear
        defaultLess).tree_.comp = defaultLess ∧
    (xs.foldl TreeSetC.insVal
        ((TreeSetC.construct defaultLess (some c)).clear
          defaultLess)).tree_.elemsInOrder =
      xs.foldl (fun l x => treeInsert defaultLess x l) [] := by
  refine ⟨rfl, rfl, ?_⟩
  rw [foldl_insVal_elems]
  rfl

end ClaimC10

/-! ## The multi-key tree comparator
(`src/src/internal/tree/MultiMapTree.ts`) -/

/-- A map iterator handle: key (`first`), mapped value (`second`), and
creation id (`get_uid`). -/
structure MapIter (Key V : Type) where
  first : Key
  second : V
  uid : Nat
  deriving DecidableEq, Repr

/-- Key equivalence under a strict-weak-order comparator. -/
def EquivK {Key : Type} (comp : Key → Key → Bool) (a b : Key) : Prop :=
  comp a b = false ∧ comp b a = false

/-- Boolean form of `EquivK`, for filters. -/
def equivB {Key : Type} (comp : Key → Key → Bool) (a b : Key) : Bool :=
  !comp a b && !comp b a

theorem equivB_eq_true {Key : Type} {comp : Key → Key → Bool}
    {a b : Key} : equivB comp a b = true ↔ EquivK comp a b := by
  simp [equivB, EquivK]

/-- The caller obligation of §6 and the glossary: the comparator is a
strict weak order — irreflexive, transitive, and with transitive
equivalence. -/
structure IsSWO {Key : Type} (comp : Key → Key → Bool) : Prop where
  irrefl : ∀ a, comp a a = false
  trans : ∀ a b c, comp a b = true → comp b c = true → comp a c = true
  equivTrans : ∀ a b c, EquivK comp a b → EquivK comp b c →
    EquivK comp a c

namespace IsSWO

variable {Key : Type} {comp : Key → Key → Bool}

theorem asymm (h : IsSWO comp) {a b : Key} (hab : comp a b = true) :
    comp b a = false := by
  by_contra hba
  rw [Bool.not_eq_false] at hba
  exact absurd (h.trans a b a hab hba) (by simp [h.irrefl a])

theorem equivK_symm (h : IsSWO comp) {a b : Key} (hab : EquivK comp a b) :
    EquivK comp b a := ⟨hab.2, hab.1⟩

theorem lt_of_lt_of_equiv (h : IsSWO comp) {a b c : Key}
    (hab : comp a b = true)
    (hbc : EquivK comp b c) : comp a c = true := by
  by_contra hac
  rw [Bool.not_eq_true] at hac
  have hca : comp c a = false := by
    by_contra hca
    rw [Bool.not_eq_false] at hca
    exact absurd (h.trans c a b hca hab) (by simp [hbc.2])
  exact absurd (h.equivTrans a c b ⟨hac, hca⟩ (h.equivK_symm hbc)).1
    (by simp [hab])

theorem lt_of_equiv_of_lt (h : IsSWO comp) {a b c : Key}
    (hab : EquivK comp a b)
    (hbc : comp b c = true) : comp a c = true := by
  by_contra hac
  rw [Bool.not_eq_true] at hac
  have hca : comp c a = false := by
    by_contra hca
    rw [Bool.not_eq_false] at hca
    exact absurd (h.trans b c a hbc hca) (by simp [hab.2])
  exact absurd (h.equivTrans b a c (h.equivK_symm hab) ⟨hac, hca⟩).1
    (by simp [hbc])

end IsSWO

/-- The comparator installed by the `MultiMapTree` constructor
(lines 24–34): compare keys with the caller's `comp`; when neither key
precedes the other fall back to `get_uid(x) < get_uid(y)`. -/
def multiComp {Key V : Type} (comp : Key → Key → Bool)
    (x y : MapIter Key V) : Bool :=
  let ret := comp x.first y.first
  if !ret && !comp y.first x.first then decide (x.uid < y.uid) else ret

theorem multiComp_iff {Key V : Type} {comp : Key → Key → Bool}
    {x y : MapIter Key V} :
    multiComp comp x y = true ↔
      comp x.first y.first = true ∨
      (EquivK comp x.first y.first ∧ x.uid < y.uid) := by
  cases hxy : comp x.first y.first with
  | true => simp [multiComp, EquivK, hxy]
  | false =>
    cases hyx : comp y.first x.first with
    | true => simp [multiComp, EquivK, hxy, hyx]
    | false => simp [multiComp, EquivK, hxy, hyx]

section MultiCompLemmas

variable {Key V : Type} {comp : Key → Key → Bool}

theorem multiComp_trans (h : IsSWO comp) {x y z : MapIter Key V}
    (hxy : multiComp comp x y = true) (hyz : multiComp comp y z = true) :
    multiComp comp x z = true := by
  rw [multiComp_iff] at *
  rcases hxy with hxy | ⟨hxy, hu⟩ <;> rcases hyz with hyz | ⟨hyz, hu'⟩
  · exact Or.inl (h.trans _ _ _ hxy hyz)
  · exact Or.inl (h.lt_of_lt_of_equiv hxy hyz)
  · exact Or.inl (h.lt_of_equiv_of_lt hxy hyz)
  · exact Or.inr ⟨h.equivTrans _ _ _ hxy hyz, Nat.lt_trans hu hu'⟩

theorem multiComp_asymm (h : IsSWO comp) {x y : MapIter Key V}
    (hxy : multiComp comp x y = true) : multiComp comp y x = false := by
  by_contra hyx
  rw [Bool.not_eq_false, multiComp_iff] at hyx
  rw [multiComp_iff] at hxy
  rcases hxy with hxy | ⟨hxy, hu⟩ <;> rcases hyx with hyx | ⟨hyx, hu'⟩
  · exact absurd hyx (by simp [h.asymm hxy])
  · exact absurd hxy (by simp [hyx.2])
  · exact absurd hyx (by simp [hxy.2])
  · omega

end MultiCompLemmas

/-! ### Claim C3: equal-key runs keep insertion order in the multi
tree -/

section ClaimC3

variable {Key V : Type}

/-- C3: in a multi-key tree (handles ordered by `multiComp`, uids
issued in insertion order), the handles whose key is equivalent to `k`
appear in traversal order sorted by creation id — i.e. in insertion
order — and inserting a fresh handle with key equivalent to `k` (its
uid larger than every stored uid, as `get_uid` issues increasing ids)
places it exactly at the end of its equal-key run. -/
theorem multi_insert_order (comp : Key → Key → Bool) (hswo : IsSWO comp)
    (k : Key) (l : List (MapIter Key V))
    (hsort : l.Pairwise (fun a b => multiComp comp a b = true))
    (x : MapIter Key V) (hx : EquivK comp x.first k)
    (hfresh : ∀ y ∈ l, y.uid < x.uid) :
    ((treeInsert (multiComp comp) x l).filter
        (fun e => equivB comp e.first k) =
      l.filter (fun e => equivB comp e.first k) ++ [x]) ∧
    ((treeInsert (multiComp comp) x l).filter
        (fun e => equivB comp e.first k)).Pairwise
      (fun a b => a.uid < b.uid) := by
  have hxB : equivB comp x.first k = true := equivB_eq_true.mpr hx
  have hmain : (treeInsert (multiComp comp) x l).filter
      (fun e => equivB comp e.first k) =
      l.filter (fun e => equivB comp e.first k) ++ [x] := by
    induction l with
    | nil => simp [treeInsert, hxB]
    | cons y ys ih =>
      rw [treeInsert]
      rcases List.pairwise_cons.mp hsort with ⟨hy, hys⟩
      split
      · next hlt =>
        -- x goes before y: y and everything after are strictly greater
        have hky : comp k y.first = true := by
          rcases multiComp_iff.mp hlt with hk | ⟨_, hu⟩
          · exact hswo.lt_of_equiv_of_lt (hswo.equivK_symm hx) hk
          · exact absurd (hfresh y (by simp)) (by omega)
        have hnone : ∀ z ∈ y :: ys, equivB comp z.first k = false := by
          intro z hz
          have hkz : comp k z.first = true := by
            rcases List.mem_cons.mp hz with rfl | hz'
            · exact hky
            · rcases multiComp_iff.mp (hy z hz') with hk | ⟨he, _⟩
              · exact hswo.trans _ _ _ hky hk
              · exact hswo.lt_of_lt_of_equiv hky he
          simp only [equivB, Bool.and_eq_false_iff]
          right
          simp [hkz]
        have hfil : (y :: ys).filter
            (fun e => equivB comp e.first k) = [] := by
          rw [List.filter_eq_nil_iff]
          intro a ha
          simp [hnone a ha]
        rw [List.filter_cons, if_pos hxB, hfil]
        rfl
      · next hnlt =>
        have ihh := ih hys (fun z hz => hfresh z (by simp [hz]))
        by_cases hyk : equivB comp y.first k = true
        · rw [List.filter_cons, if_pos hyk, ihh,
            List.filter_cons, if_pos hyk]
          rfl
        · rw [List.filter_cons, if_neg hyk, ihh,
            List.filter_cons, if_neg hyk]
  refine ⟨hmain, ?_⟩
  rw [hmain]
  have hsub : ∀ e ∈ l.filter (fun e => equivB comp e.first k), e ∈ l :=
    fun e he => (List.mem_filter.mp he).1
  have hpair : (l.filter (fun e => equivB comp e.first k)).Pairwise
      (fun a b => a.uid < b.uid) := by
    have hfp := hsort.filter (fun e => equivB comp e.first k)
    refine hfp.imp_of_mem ?_
    intro a b ha hb hab
    have hak : EquivK comp a.first k :=
      equivB_eq_true.mp (List.mem_filter.mp ha).2
    have hbk : EquivK comp b.first k :=
      equivB_eq_true.mp (List.mem_filter.mp hb).2
    rcases multiComp_iff.mp hab with hk | ⟨_, hu⟩
    · exact absurd hk
        (by simp [(hswo.equivTrans _ _ _ hak (hswo.equivK_symm hbk)).1])
    · exact hu
  rw [List.pairwise_append]
  refine ⟨hpair, by simp, ?_⟩
  intro a ha b hb
  rw [List.mem_singleton] at hb
  subst hb
  exact hfresh a (hsub a ha)

/-- Witness data: three handles with keys `[1, 2, 2]` and uids
`0, 1, 2`, plus a fresh handle with key 2, uid 3. -/
def runList : List (MapIter Nat Unit) :=
  [⟨1, (), 0⟩, ⟨2, (), 1⟩, ⟨2, (), 2⟩]

theorem multi_insert_order_witness :
    ((treeInsert (multiComp (fun a b : Nat => decide (a < b)))
        ⟨2, (), 3⟩ runList).filter
        (fun e => equivB (fun a b : Nat => decide (a < b)) e.first 2) =
      runList.filter
        (fun e => equivB (fun a b : Nat => decide (a < b)) e.first 2)
        ++ [⟨2, (), 3⟩]) ∧
    ((treeInsert (multiComp (fun a b : Nat => decide (a < b)))
        ⟨2, (), 3⟩ runList).filter
        (fun e => equivB (fun a b : Nat => decide (a < b)) e.first 2)
        ).Pairwise (fun a b => a.uid < b.uid) :=
  multi_insert_order (fun a b : Nat => decide (a < b))
    ⟨fun a => by simp, fun a b c h1 h2 => by simp at *; omega,
      fun a b c h1 h2 => by simp [EquivK] at *; omega⟩
    2 runList (by decide) ⟨2, (), 3⟩ (by simp [EquivK]) (by decide)

end ClaimC3

/-! ## The binary-search-tree descent
(`MultiMapTree._Nearest_by_key` / `upper_bound`,
`src/src/internal/tree/MultiMapTree.ts` 47–116) -/

/-- A binary tree of `XTreeNode`s as the descent sees it: only the
owning left/right links matter (color plays no role in a search). -/
inductive BTree (α : Type) where
  | nil : BTree α
  | node (l : BTree α) (v : α) (r : BTree α) : BTree α

namespace BTree

/-- In-order traversal — the order in which a tree container's element
list enumerates its handles. -/
def inorder {α : Type} : BTree α → List α
  | nil => []
  | node l v r => inorder l ++ v :: inorder r

/-- Decidable binary-search-tree invariant with respect to a boolean
strict order `lt`. -/
def orderedB {α : Type} (lt : α → α → Bool) : BTree α → Bool
  | nil => true
  | node l v r =>
    l.inorder.all (fun x => lt x v) && r.inorder.all (fun x => lt v x)
      && l.orderedB lt && r.orderedB lt

theorem orderedB_node {α : Type} {lt : α → α → Bool} {l r : BTree α}
    {v : α} :
    (node l v r).orderedB lt = true ↔
      (∀ x ∈ l.inorder, lt x v = true) ∧
      (∀ x ∈ r.inorder, lt v x = true) ∧
      l.orderedB lt = true ∧ r.orderedB lt = true := by
  simp [orderedB, List.all_eq_true, and_assoc]

end BTree

/-- The loop of `_Nearest_by_key` (lines 60–88), descending from the
current node: move left when the query key precedes the node's key,
right when the node's key precedes the query's, and — on an
equivalent key — record the node in `matched` and move through
`equal_mover` (`node.left` for `nearest_by_key`, `node.right` for
`upper_bound`; selected here by `side`); when the chosen child does
not exist, return `matched` if one was recorded, else the node the
loop stands on (carried in `last`). -/
def nearRun {Key V : Type} (comp : Key → Key → Bool) (key : Key)
    (side : Bool) :
    BTree (MapIter Key V) → Option (MapIter Key V) →
      Option (MapIter Key V) → Option (MapIter Key V)
  | .nil, m, last => m.or last
  | .node l v r, m, _ =>
    if comp key v.first then nearRun comp key side l m (some v)
    else if comp v.first key then nearRun comp key side r m (some v)
    else if side then nearRun comp key side r (some v) (some v)
    else nearRun comp key side l (some v) (some v)

/-- `_Nearest_by_key`: `null` for an empty tree, else run the descent
from the root. -/
def nearestByKey {Key V : Type} (comp : Key → Key → Bool) (key : Key)
    (side : Bool) (t : BTree (MapIter Key V)) : Option (MapIter Key V) :=
  match t with
  | .nil => none
  | .node l v r => nearRun comp key side (.node l v r) none none

/-- `it.next()` in the container's element list: the entry after the
(unique) occurrence of `v`; `none` models `end()`. -/
def listNext {α : Type} [DecidableEq α] (l : List α) (v : α) :
    Option α :=
  match l with
  | [] => none
  | a :: rest => if a = v then rest.head? else listNext rest v

/-- `MultiMapTree.upper_bound(key)` (lines 99–116): run the descent
with the right-moving `equal_mover`; `end()` when nothing was found;
return the node when its key strictly follows `key`, else its in-order
successor. -/
def upper_bound {Key V : Type} [DecidableEq Key] [DecidableEq V]
    (comp : Key → Key → Bool) (t : BTree (MapIter Key V)) (key : Key) :
    Option (MapIter Key V) :=
  match nearestByKey comp key true t with
  | none => none
  | some v => if comp key v.first then some v else listNext t.inorder v

/-- Modelled from the spec: `MapTree.lower_bound` is not under `src/`;
per §4.2 the bound query takes the left-moving `nearest_by_key`
candidate and "steps forward once if the candidate's key strictly
precedes the query key". -/
def lower_bound {Key V : Type} [DecidableEq Key] [DecidableEq V]
    (comp : Key → Key → Bool) (t : BTree (MapIter Key V)) (key : Key) :
    Option (MapIter Key V) :=
  match nearestByKey comp key false t with
  | none => none
  | some v => if comp v.first key then listNext t.inorder v else some v

/-! ### Lemmas about the descent -/

section NearestLemmas

variable {Key V : Type} {comp : Key → Key → Bool} {key : Key}

theorem nearRun_no_equiv (side : Bool) (t : BTree (MapIter Key V))
    (hne : ∀ e ∈ t.inorder, ¬ EquivK comp e.first key)
    (v0 : MapIter Key V) :
    ∀ last, nearRun comp key side t (some v0) last = some v0 := by
  induction t with
  | nil => intro last; rfl
  | node l v r ihl ihr =>
    intro last
    have hnl : ∀ e ∈ l.inorder, ¬ EquivK comp e.first key :=
      fun e he => hne e (by simp [BTree.inorder, he])
    have hnr : ∀ e ∈ r.inorder, ¬ EquivK comp e.first key :=
      fun e he => hne e (by simp [BTree.inorder, he])
    simp only [nearRun]
    split
    · exact ihl hnl _
    · next h1 =>
      split
      · exact ihr hnr _
      · next h2 =>
        exact absurd ⟨by simpa using h2, by simpa using h1⟩
          (hne v (by simp [BTree.inorder]))

theorem orderedB_pairwise (h : IsSWO comp) (t : BTree (MapIter Key V))
    (hord : t.orderedB (multiComp comp) = true) :
    t.inorder.Pairwise (fun a b => multiComp comp a b = true) := by
  induction t with
  | nil => exact List.Pairwise.nil
  | node l v r ihl ihr =>
    obtain ⟨hl, hr, hol, hor⟩ := BTree.orderedB_node.mp hord
    rw [BTree.inorder, List.pairwise_append]
    refine ⟨ihl hol, List.pairwise_cons.mpr ⟨hr, ihr hor⟩, ?_⟩
    intro a ha b hb
    rcases List.mem_cons.mp hb with rfl | hb'
    · exact hl a ha
    · exact multiComp_trans h (hl a ha) (hr b hb')

theorem equiv_mem_left (h : IsSWO comp) {l r : BTree (MapIter Key V)}
    {v : MapIter Key V}
    (hr : ∀ x ∈ r.inorder, multiComp comp v x = true)
    (hkv : comp key v.first = true) :
    ∀ e ∈ (BTree.node l v r).inorder, EquivK comp e.first key →
      e ∈ l.inorder := by
  intro e he heq
  simp only [BTree.inorder] at he
  rcases List.mem_append.mp he with he' | hvr
  · exact he'
  rcases List.mem_cons.mp hvr with rfl | he'
  · exact absurd hkv (by simp [heq.2])
  · exfalso
    rcases multiComp_iff.mp (hr e he') with hlt | ⟨heqv, _⟩
    · have := h.lt_of_lt_of_equiv hlt heq
      exact absurd this (by simp [h.asymm hkv])
    · exact absurd hkv (by simp [(h.equivTrans _ _ _ heqv heq).2])

theorem equiv_mem_right (h : IsSWO comp) {l r : BTree (MapIter Key V)}
    {v : MapIter Key V}
    (hl : ∀ x ∈ l.inorder, multiComp comp x v = true)
    (hvk : comp v.first key = true) :
    ∀ e ∈ (BTree.node l v r).inorder, EquivK comp e.first key →
      e ∈ r.inorder := by
  intro e he heq
  simp only [BTree.inorder] at he
  rcases List.mem_append.mp he with he' | hvr
  · exfalso
    rcases multiComp_iff.mp (hl e he') with hlt | ⟨heqv, _⟩
    · have := h.lt_of_equiv_of_lt (h.equivK_symm heq) hlt
      exact absurd this (by simp [h.asymm hvk])
    · have : EquivK comp v.first key :=
        h.equivTrans _ _ _ (h.equivK_symm heqv) heq
      exact absurd hvk (by simp [this.1])
  rcases List.mem_cons.mp hvr with rfl | he'
  · exact absurd hvk (by simp [heq.1])
  · exact he'

theorem nearRun_equiv_left (h : IsSWO comp)
    (t : BTree (MapIter Key V)) :
    t.orderedB (multiComp comp) = true →
    (∃ e ∈ t.inorder, EquivK comp e.first key) →
    ∀ m last, ∃ mi, nearRun comp key false t m last = some mi ∧
      mi ∈ t.inorder ∧ EquivK comp mi.first key ∧
      ∀ e ∈ t.inorder, EquivK comp e.first key →
        e = mi ∨ multiComp comp mi e = true := by
  induction t with
  | nil =>
    rintro _ ⟨e, he, _⟩
    exact absurd he (List.not_mem_nil e)
  | node l v r ihl ihr =>
    intro hord hex m last
    obtain ⟨hl, hr, hol, hor⟩ := BTree.orderedB_node.mp hord
    simp only [nearRun]
    by_cases hkv : comp key v.first = true
    · rw [if_pos hkv]
      have hsub : ∀ e ∈ (BTree.node l v r).inorder,
          EquivK comp e.first key → e ∈ l.inorder :=
        equiv_mem_left h hr hkv
      obtain ⟨e0, he0, heq0⟩ := hex
      obtain ⟨mi, hrun, hmem, hmi, hmin⟩ :=
        ihl hol ⟨e0, hsub e0 he0 heq0, heq0⟩ m (some v)
      refine ⟨mi, hrun, by simp [BTree.inorder, hmem], hmi, ?_⟩
      intro e he heq
      exact hmin e (hsub e he heq) heq
    · rw [if_neg hkv]
      by_cases hvk : comp v.first key = true
      · rw [if_pos hvk]
        have hsub : ∀ e ∈ (BTree.node l v r).inorder,
            EquivK comp e.first key → e ∈ r.inorder :=
          equiv_mem_right h hl hvk
        obtain ⟨e0, he0, heq0⟩ := hex
        obtain ⟨mi, hrun, hmem, hmi, hmin⟩ :=
          ihr hor ⟨e0, hsub e0 he0 heq0, heq0⟩ m (some v)
        refine ⟨mi, hrun, by simp [BTree.inorder, hmem], hmi, ?_⟩
        intro e he heq
        exact hmin e (hsub e he heq) heq
      · rw [if_neg hvk, if_neg (by decide)]
        have hveq : EquivK comp v.first key :=
          ⟨by simpa using hvk, by simpa using hkv⟩
        by_cases hexl : ∃ e ∈ l.inorder, EquivK comp e.first key
        · obtain ⟨mi, hrun, hmem, hmi, hmin⟩ :=
            ihl hol hexl (some v) (some v)
          refine ⟨mi, hrun, by simp [BTree.inorder, hmem], hmi, ?_⟩
          intro e he heq
          simp only [BTree.inorder] at he
          rcases List.mem_append.mp he with he' | hvr
          · exact hmin e he' heq
          rcases List.mem_cons.mp hvr with rfl | he'
          · exact Or.inr (hl mi hmem)
          · exact Or.inr (multiComp_trans h (hl mi hmem) (hr e he'))
        · rw [nearRun_no_equiv false l
            (fun e he heq => hexl ⟨e, he, heq⟩) v _]
          refine ⟨v, rfl, by simp [BTree.inorder], hveq, ?_⟩
          intro e he heq
          simp only [BTree.inorder] at he
          rcases List.mem_append.mp he with he' | hvr
          · exact absurd ⟨e, he', heq⟩ hexl
          rcases List.mem_cons.mp hvr with rfl | he'
          · exact Or.inl rfl
          · exact Or.inr (hr e he')

theorem nearRun_equiv_right (h : IsSWO comp)
    (t : BTree (MapIter Key V)) :
    t.orderedB (multiComp comp) = true →
    (∃ e ∈ t.inorder, EquivK comp e.first key) →
    ∀ m last, ∃ mi, nearRun comp key true t m last = some mi ∧
      mi ∈ t.inorder ∧ EquivK comp mi.first key ∧
      ∀ e ∈ t.inorder, EquivK comp e.first key →
        e = mi ∨ multiComp comp e mi = true := by
  induction t with
  | nil =>
    rintro _ ⟨e, he, _⟩
    exact absurd he (List.not_mem_nil e)
  | node l v r ihl ihr =>
    intro hord hex m last
    obtain ⟨hl, hr, hol, hor⟩ := BTree.orderedB_node.mp hord
    simp only [nearRun]
    by_cases hkv : comp key v.first = true
    · rw [if_pos hkv]
      have hsub : ∀ e ∈ (BTree.node l v r).inorder,
          EquivK comp e.first key → e ∈ l.inorder :=
        equiv_mem_left h hr hkv
      obtain ⟨e0, he0, heq0⟩ := hex
      obtain ⟨mi, hrun, hmem, hmi, hmin⟩ :=
        ihl hol ⟨e0, hsub e0 he0 heq0, heq0⟩ m (some v)
      refine ⟨mi, hrun, by simp [BTree.inorder, hmem], hmi, ?_⟩
      intro e he heq
      exact hmin e (hsub e he heq) heq
    · rw [if_neg hkv]
      by_cases hvk : comp v.first key = true
      · rw [if_pos hvk]
        have hsub : ∀ e ∈ (BTree.node l v r).inorder,
            EquivK comp e.first key → e ∈ r.inorder :=
          equiv_mem_right h hl hvk
        obtain ⟨e0, he0, heq0⟩ := hex
        obtain ⟨mi, hrun, hmem, hmi, hmin⟩ :=
          ihr hor ⟨e0, hsub e0 he0 heq0, heq0⟩ m (some v)
        refine ⟨mi, hrun, by simp [BTree.inorder, hmem], hmi, ?_⟩
        intro e he heq
        exact hmin e (hsub e he heq) heq
      · rw [if_neg hvk, if_pos (by decide)]
        have hveq : EquivK comp v.first key :=
          ⟨by simpa using hvk, by simpa using hkv⟩
        by_cases hexr : ∃ e ∈ r.inorder, EquivK comp e.first key
        · obtain ⟨mi, hrun, hmem, hmi, hmax⟩ :=
            ihr hor hexr (some v) (some v)
          refine ⟨mi, hrun, by simp [BTree.inorder, hmem], hmi, ?_⟩
          intro e he heq
          simp only [BTree.inorder] at he
          rcases List.mem_append.mp he with he' | hvr
          · exact Or.inr (multiComp_trans h (hl e he') (hr mi hmem))
          rcases List.mem_cons.mp hvr with rfl | he'
          · exact Or.inr (hr mi hmem)
          · exact hmax e he' heq
        · rw [nearRun_no_equiv true r
            (fun e he heq => hexr ⟨e, he, heq⟩) v _]
          refine ⟨v, rfl, by simp [BTree.inorder], hveq, ?_⟩
          intro e he heq
          simp only [BTree.inorder] at he
          rcases List.mem_append.mp he with he' | hvr
          · exact Or.inr (hl e he')
          rcases List.mem_cons.mp hvr with rfl | he'
          · exact Or.inl rfl
          · exact absurd ⟨e, he', heq⟩ hexr

end NearestLemmas

/-! ### Contiguity of equal-key runs and successor computation -/

theorem filter_contiguous {α : Type} {p : α → α → Prop} (q : α → Bool) :
    ∀ l : List α, l.Pairwise p →
      (∀ a b c, p a b → p b c → q a = true → q c = true → q b = true) →
      ∃ A B, l = A ++ l.filter q ++ B ∧ A.filter q = [] ∧
        B.filter q = [] := by
  intro l
  induction l with
  | nil => intro _ _; exact ⟨[], [], rfl, rfl, rfl⟩
  | cons x xs ih =>
    intro hp hconv
    rcases List.pairwise_cons.mp hp with ⟨px, pxs⟩
    obtain ⟨A, B, hxs, hA, hB⟩ := ih pxs hconv
    by_cases hqx : q x = true
    · rw [List.filter_cons, if_pos hqx]
      by_cases hF : xs.filter q = []
      · exact ⟨[], xs, by rw [hF]; simp, rfl, hF⟩
      · have hAnil : A = [] := by
          rcases hAc : A with _ | ⟨a, A'⟩
          · rfl
          · exfalso
            have haxs : a ∈ xs := by rw [hxs, hAc]; simp
            have hqa : q a = false := by
              have := List.filter_eq_nil_iff.mp hA a (by rw [hAc]; simp)
              simpa using this
            obtain ⟨f, hf⟩ := List.exists_mem_of_ne_nil _ hF
            have hqf : q f = true := (List.mem_filter.mp hf).2
            rw [hxs] at pxs
            rcases List.pairwise_append.mp pxs with ⟨p1, _, _⟩
            rcases List.pairwise_append.mp p1 with ⟨_, _, cross⟩
            have paf : p a f := cross a (by rw [hAc]; simp) f hf
            have pxa : p x a := px a haxs
            exact absurd (hconv x a f pxa paf hqx hqf) (by simp [hqa])
        rw [hAnil, List.nil_append] at hxs
        exact ⟨[], B,
          by simp only [List.nil_append, List.cons_append]; rw [← hxs],
          rfl, hB⟩
    · rw [List.filter_cons, if_neg hqx]
      refine ⟨x :: A, B,
        by simp only [List.cons_append]; rw [← hxs], ?_, hB⟩
      rw [List.filter_cons, if_neg hqx]
      exact hA

theorem listNext_append {α : Type} [DecidableEq α] (A l : List α)
    (v : α) (hv : v ∉ A) : listNext (A ++ l) v = listNext l v := by
  induction A with
  | nil => rfl
  | cons a A ih =>
    rw [List.cons_append, listNext,
      if_neg (show ¬ a = v from fun h => hv (by simp [h]))]
    exact ih (fun h => hv (by simp [h]))

theorem listNext_cons_self {α : Type} [DecidableEq α] (l : List α)
    (v : α) : listNext (v :: l) v = l.head? := by
  simp [listNext]

theorem head_of_min {α : Type} {p : α → α → Prop}
    (hasym : ∀ a b, p a b → ¬ p b a) (R : List α) (hp : R.Pairwise p)
    (mi : α) (hmem : mi ∈ R) (hmin : ∀ e ∈ R, e = mi ∨ p mi e) :
    R.head? = some mi := by
  cases R with
  | nil => exact absurd hmem (List.not_mem_nil mi)
  | cons h0 R' =>
    rcases List.mem_cons.mp hmem with rfl | hmem'
    · rfl
    · exfalso
      have hp0 := (List.pairwise_cons.mp hp).1 mi hmem'
      rcases hmin h0 (by simp) with rfl | hpm
      · exact hasym _ _ hp0 hp0
      · exact hasym _ _ hp0 hpm

/-! ### Claim C4: `lower_bound`/`upper_bound` bracket the equal-key
run -/

section ClaimC4

variable {Key V : Type}

/-- C4: in a multi-key tree containing an element with key equivalent
to `k`, the traversal splits as `A ++ R ++ B` where `R` is the
(nonempty, contiguous) equal-key run of `k`; `lower_bound(k)` returns
the iterator at the first element of `R` and `upper_bound(k)` the
iterator at the first element past `R` (`end()` when `B` is empty). -/
theorem bounds_equal_run [DecidableEq Key] [DecidableEq V]
    (comp : Key → Key → Bool) (hswo : IsSWO comp)
    (t : BTree (MapIter Key V)) (k : Key)
    (hord : t.orderedB (multiComp comp) = true)
    (hnodup : t.inorder.Nodup)
    (hex : ∃ e ∈ t.inorder, EquivK comp e.first k) :
    ∃ A B,
      t.inorder =
        A ++ t.inorder.filter (fun e => equivB comp e.first k) ++ B ∧
      t.inorder.filter (fun e => equivB comp e.first k) ≠ [] ∧
      lower_bound comp t k =
        (t.inorder.filter (fun e => equivB comp e.first k)).head? ∧
      upper_bound comp t k = B.head? := by
  have hasym : ∀ a b : MapIter Key V, multiComp comp a b = true →
      ¬ multiComp comp b a = true := by
    intro a b ha hb
    exact absurd hb (by simp [multiComp_asymm hswo ha])
  obtain ⟨e0, he0, heq0⟩ := hex
  cases t with
  | nil => simp [BTree.inorder] at he0
  | node l0 v0 r0 =>
    have hpair := orderedB_pairwise hswo (BTree.node l0 v0 r0) hord
    have hconv : ∀ a b c : MapIter Key V,
        multiComp comp a b = true → multiComp comp b c = true →
        equivB comp a.first k = true → equivB comp c.first k = true →
        equivB comp b.first k = true := by
      intro a b c hab hbc ha hc
      rw [equivB_eq_true] at ha hc ⊢
      rcases multiComp_iff.mp hab with h1 | ⟨h1, _⟩
      · rcases multiComp_iff.mp hbc with h2 | ⟨h2, _⟩
        · have hkb : comp k b.first = true :=
            hswo.lt_of_equiv_of_lt (hswo.equivK_symm ha) h1
          have hbk : comp b.first k = true :=
            hswo.lt_of_lt_of_equiv h2 hc
          exact absurd hbk (by simp [hswo.asymm hkb])
        · exact hswo.equivTrans _ _ _ h2 hc
      · exact hswo.equivTrans _ _ _ (hswo.equivK_symm h1) ha
    obtain ⟨A, B, hdec, hA, hB⟩ :=
      filter_contiguous (fun e => equivB comp e.first k)
        (BTree.node l0 v0 r0).inorder hpair hconv
    have hRne : (BTree.node l0 v0 r0).inorder.filter
        (fun e => equivB comp e.first k) ≠ [] :=
      List.ne_nil_of_mem
        (List.mem_filter.mpr ⟨he0, equivB_eq_true.mpr heq0⟩)
    have hpR := hpair.filter (fun e => equivB comp e.first k)
    -- lower bound: the left descent returns the minimum of the run
    obtain ⟨mi, hrunL, hmemL, hmiL, hminL⟩ :=
      nearRun_equiv_left hswo (BTree.node l0 v0 r0) hord
        ⟨e0, he0, heq0⟩ none none
    have hlower : lower_bound comp (BTree.node l0 v0 r0) k = some mi := by
      simp only [lower_bound, nearestByKey]
      rw [hrunL]
      simp [hmiL.1]
    have hmiR : mi ∈ (BTree.node l0 v0 r0).inorder.filter
        (fun e => equivB comp e.first k) :=
      List.mem_filter.mpr ⟨hmemL, equivB_eq_true.mpr hmiL⟩
    have hhead : ((BTree.node l0 v0 r0).inorder.filter
        (fun e => equivB comp e.first k)).head? = some mi := by
      refine head_of_min hasym _ hpR mi hmiR ?_
      intro e he
      exact hminL e (List.mem_filter.mp he).1
        (equivB_eq_true.mp (List.mem_filter.mp he).2)
    -- upper bound: the right descent returns the maximum of the run
    obtain ⟨Mi, hrunR, hmemR, hMiR, hmaxR⟩ :=
      nearRun_equiv_right hswo (BTree.node l0 v0 r0) hord
        ⟨e0, he0, heq0⟩ none none
    have hupper0 : upper_bound comp (BTree.node l0 v0 r0) k =
        listNext (BTree.node l0 v0 r0).inorder Mi := by
      simp only [upper_bound, nearestByKey]
      rw [hrunR]
      simp [hMiR.2]
    have hMiRmem : Mi ∈ (BTree.node l0 v0 r0).inorder.filter
        (fun e => equivB comp e.first k) :=
      List.mem_filter.mpr ⟨hmemR, equivB_eq_true.mpr hMiR⟩
    obtain hnil | ⟨D, lastE, hRD⟩ :=
      ((BTree.node l0 v0 r0).inorder.filter
        (fun e => equivB comp e.first k)).eq_nil_or_concat
    · exact absurd hnil hRne
    rw [List.concat_eq_append] at hRD
    have hlast : lastE = Mi := by
      by_contra hcon
      have hmemD : Mi ∈ D := by
        rw [hRD] at hMiRmem
        rcases List.mem_append.mp hMiRmem with hD | hL
        · exact hD
        · rw [List.mem_singleton] at hL
          exact absurd hL.symm hcon
      have hpD : multiComp comp Mi lastE = true := by
        rw [hRD] at hpR
        rcases List.pairwise_append.mp hpR with ⟨_, _, cross⟩
        exact cross Mi hmemD lastE (by simp)
      have hlastR : lastE ∈ (BTree.node l0 v0 r0).inorder.filter
          (fun e => equivB comp e.first k) := by
        rw [hRD]; simp
      rcases hmaxR lastE (List.mem_filter.mp hlastR).1
        (equivB_eq_true.mp (List.mem_filter.mp hlastR).2) with heq | hpm
      · exact hcon heq
      · exact hasym _ _ hpD hpm
    rw [hlast] at hRD
    have hfull : (BTree.node l0 v0 r0).inorder =
        A ++ (D ++ (Mi :: B)) := by
      rw [hdec, hRD]
      simp
    have hnodup2 : (A ++ (D ++ (Mi :: B))).Nodup := hfull ▸ hnodup
    rcases List.nodup_append.mp hnodup2 with ⟨_, hnd2, hdisj1⟩
    rcases List.nodup_append.mp hnd2 with ⟨_, _, hdisj2⟩
    have hMnotA : Mi ∉ A := fun hmA =>
      hdisj1 hmA (List.mem_append_right _ (by simp))
    have hMnotD : Mi ∉ D := fun hmD => hdisj2 hmD (by simp)
    have hnext : listNext (BTree.node l0 v0 r0).inorder Mi =
        B.head? := by
      rw [hfull, listNext_append _ _ _ hMnotA,
        listNext_append _ _ _ hMnotD, listNext_cons_self]
    exact ⟨A, B, hdec, hRne, by rw [hlower, hhead],
      by rw [hupper0, hnext]⟩

/-- The default comparator at `Nat` keys. -/
def natLt : Nat → Nat → Bool := fun a b => decide (a < b)

theorem natLt_swo : IsSWO natLt :=
  ⟨fun a => by simp [natLt],
   fun a b c h1 h2 => by simp [natLt] at *; omega,
   fun a b c h1 h2 => by simp [natLt, EquivK] at *; omega⟩

/-- The spec's example: keys `[1,2,2,2,3]` (uids 0–4) as a search tree
ordered by `multiComp`. -/
def exTree : BTree (MapIter Nat Unit) :=
  .node (.node .nil ⟨1, (), 0⟩ (.node .nil ⟨2, (), 1⟩ .nil))
    ⟨2, (), 2⟩
    (.node (.node .nil ⟨2, (), 3⟩ .nil) ⟨3, (), 4⟩ .nil)

theorem bounds_equal_run_witness :
    ∃ A B,
      exTree.inorder =
        A ++ exTree.inorder.filter (fun e => equivB natLt e.first 2)
          ++ B ∧
      exTree.inorder.filter (fun e => equivB natLt e.first 2) ≠ [] ∧
      lower_bound natLt exTree 2 =
        (exTree.inorder.filter (fun e => equivB natLt e.first 2)).head? ∧
      upper_bound natLt exTree 2 = B.head? :=
  bounds_equal_run natLt natLt_swo exTree 2 (by decide) (by decide)
    ⟨⟨2, (), 1⟩, by decide, ⟨rfl, rfl⟩⟩

end ClaimC4

/-! ### Claim C8: red-black invariants after every insert/erase
(`XTree`, declared in `src/ts/std.d.ts` 899–928; the rebalancing
implementation is not under `src/`) -/

section ClaimC8

open Batteries (RBNode RBColor)

variable {α : Type}

/-- Modelled from the spec: the `XTree` red-black rebalancing
(`insertCase1..5`, `eraseCase1..6`) is declared in `std.d.ts` but its
body is not under `src/`; §4.2 describes the standard
invariant-restoring repair for insert and erase, modelled as the
standard functional red-black `insert`/`erase` of `Batteries.RBNode`.
One tree-index mutation per container mutation
(`handle_insert`/`handle_erase`, `src/ts/src/std/TreeSet.ts`
333–344). -/
inductive TreeOp (α : Type) where
  | ins (x : α) : TreeOp α
  | del (x : α) : TreeOp α

/-- Apply one mutation: `handle_insert` inserts the handle under the
tree's comparator; `handle_erase(val)` removes the node found by
comparator search for `val`. -/
def treeStep (cmp : α → α → Ordering) (t : RBNode α) :
    TreeOp α → RBNode α
  | .ins x => t.insert cmp x
  | .del x => t.erase (cmp x ·)

/-- Run a mutation sequence from the empty tree. -/
def runTreeOps (cmp : α → α → Ordering) (ops : List (TreeOp α)) :
    RBNode α :=
  ops.foldl (treeStep cmp) .nil

/-- Whether the root is red. -/
def isRedB : RBNode α → Bool
  | .node .red .. => true
  | _ => false

/-- "No red node has a red child." -/
def redRedOk : RBNode α → Bool
  | .nil => true
  | .node c l _ r =>
    (match c with
     | .red => !isRedB l && !isRedB r
     | .black => true) && redRedOk l && redRedOk r

/-- The common number of black nodes on every root-to-leaf path, or
`none` when two paths disagree. -/
def bhOk : RBNode α → Option Nat
  | .nil => some 0
  | .node c l _ r =>
    match bhOk l, bhOk r with
    | some m, some n =>
      if m = n then
        some (m + match c with | .black => 1 | .red => 0)
      else none
    | _, _ => none

/-- In-order traversal of the tree index. -/
def rbInorder : RBNode α → List α
  | .nil => []
  | .node _ l v r => rbInorder l ++ v :: rbInorder r

theorem balanced_isRedB {t : RBNode α} {n : Nat}
    (h : t.Balanced .black n) : isRedB t = false := by
  cases h <;> rfl

theorem balanced_redRedOk {t : RBNode α} {c : RBColor} {n : Nat}
    (h : t.Balanced c n) : redRedOk t = true := by
  induction h with
  | nil => rfl
  | red hl hr ihl ihr =>
    simp [redRedOk, balanced_isRedB hl, balanced_isRedB hr, ihl, ihr]
  | black hl hr ihl ihr => simp [redRedOk, ihl, ihr]

theorem balanced_bhOk {t : RBNode α} {c : RBColor} {n : Nat}
    (h : t.Balanced c n) : bhOk t = some n := by
  induction h with
  | nil => rfl
  | red hl hr ihl ihr => simp [bhOk, ihl, ihr]
  | black hl hr ihl ihr => simp [bhOk, ihl, ihr]

theorem all_iff_forall_rbInorder {p : α → Prop} {t : RBNode α} :
    t.All p ↔ ∀ x ∈ rbInorder t, p x := by
  induction t with
  | nil => simp [RBNode.All, rbInorder]
  | node c l v r ihl ihr =>
    simp only [RBNode.All, rbInorder, List.mem_append, List.mem_cons,
      ihl, ihr]
    constructor
    · rintro ⟨hv, hl, hr⟩ x (hx | rfl | hx)
      · exact hl x hx
      · exact hv
      · exact hr x hx
    · intro h
      exact ⟨h v (Or.inr (Or.inl rfl)),
        fun x hx => h x (Or.inl hx),
        fun x hx => h x (Or.inr (Or.inr hx))⟩

theorem ordered_pairwise_rb {cmp : α → α → Ordering}
    [Batteries.TransCmp cmp] {t : RBNode α}
    (h : t.Ordered cmp) :
    (rbInorder t).Pairwise (fun a b => cmp a b = .lt) := by
  induction t with
  | nil => exact List.Pairwise.nil
  | node c l v r ihl ihr =>
    obtain ⟨hlv, hvr, hl, hr⟩ := h
    rw [rbInorder, List.pairwise_append]
    have hlv' := all_iff_forall_rbInorder.mp hlv
    have hvr' := all_iff_forall_rbInorder.mp hvr
    refine ⟨ihl hl, List.pairwise_cons.mpr ⟨?_, ihr hr⟩, ?_⟩
    · exact fun b hb => Batteries.RBNode.cmpLT_iff.mp (hvr' b hb)
    · intro a ha b hb
      have hav : cmp a v = .lt := Batteries.RBNode.cmpLT_iff.mp (hlv' a ha)
      rcases List.mem_cons.mp hb with rfl | hb'
      · exact hav
      · exact Batteries.TransCmp.lt_trans hav
          (Batteries.RBNode.cmpLT_iff.mp (hvr' b hb'))

theorem runTreeOps_wf (cmp : α → α → Ordering) [Batteries.TransCmp cmp]
    (ops : List (TreeOp α)) :
    (runTreeOps cmp ops).Ordered cmp ∧
      ∃ c n, (runTreeOps cmp ops).Balanced c n := by
  rw [runTreeOps]
  have hinit : (RBNode.nil : RBNode α).Ordered cmp ∧
      ∃ c n, (RBNode.nil : RBNode α).Balanced c n :=
    ⟨trivial, .black, 0, .nil⟩
  generalize (RBNode.nil : RBNode α) = t at hinit ⊢
  induction ops generalizing t with
  | nil => exact hinit
  | cons op ops ih =>
    obtain ⟨ho, c, n, hb⟩ := hinit
    cases op with
    | ins x => exact ih _ ⟨ho.insert, hb.insert⟩
    | del x =>
      exact ih _ ⟨ho.erase, by
        obtain ⟨n', hb'⟩ := hb.erase
        exact ⟨.black, n', hb'⟩⟩

/-- C8: after every sequence of inserts and erases on a tree-backed
container, the index tree satisfies the red-black invariants: no red
node has a red child, every root-to-leaf path carries the same number
of black nodes, and the in-order traversal is in comparator order. -/
theorem rb_invariants (cmp : α → α → Ordering) [Batteries.TransCmp cmp]
    (ops : List (TreeOp α)) :
    redRedOk (runTreeOps cmp ops) = true ∧
    (bhOk (runTreeOps cmp ops)).isSome = true ∧
    (rbInorder (runTreeOps cmp ops)).Pairwise
      (fun a b => cmp a b = .lt) := by
  obtain ⟨ho, c, n, hb⟩ := runTreeOps_wf cmp ops
  exact ⟨balanced_redRedOk hb, by rw [balanced_bhOk hb]; rfl,
    ordered_pairwise_rb ho⟩

/-- Witness: the scenario-1 keys with an interleaved erase. -/
theorem rb_invariants_witness :
    redRedOk (runTreeOps compare
      [TreeOp.ins 5, TreeOp.ins 3, TreeOp.ins 8, TreeOp.ins 1,
       TreeOp.del 3, TreeOp.ins 4, TreeOp.ins 7, TreeOp.del 5,
       TreeOp.ins 9, TreeOp.ins (2 : Nat)]) = true ∧
    (bhOk (runTreeOps compare
      [TreeOp.ins 5, TreeOp.ins 3, TreeOp.ins 8, TreeOp.ins 1,
       TreeOp.del 3, TreeOp.ins 4, TreeOp.ins 7, TreeOp.del 5,
       TreeOp.ins 9, TreeOp.ins (2 : Nat)])).isSome = true ∧
    (rbInorder (runTreeOps compare
      [TreeOp.ins 5, TreeOp.ins 3, TreeOp.ins 8, TreeOp.ins 1,
       TreeOp.del 3, TreeOp.ins 4, TreeOp.ins 7, TreeOp.del 5,
       TreeOp.ins 9, TreeOp.ins (2 : Nat)])).Pairwise
      (fun a b => compare a b = .lt) :=
  rb_invariants compare
    [TreeOp.ins 5, TreeOp.ins 3, TreeOp.ins 8, TreeOp.ins 1,
     TreeOp.del 3, TreeOp.ins 4, TreeOp.ins 7, TreeOp.del 5,
     TreeOp.ins 9, TreeOp.ins (2 : Nat)]

end ClaimC8

end Tstl
